import Mathlib

/-!
Shallow embedding of the cerfaparse geometry-to-field inference pipeline:
the files src/transform.ts, src/extract-boxes.ts, src/group-rows.ts,
src/extract-labels.ts, src/extract-dot-lines.ts, src/map-labels.ts and the
per-page loop of src/cli.ts.  JavaScript numbers are modelled as rationals,
JavaScript strings as lists of characters (label text) or Lean strings
(field keys), the mutable Set objects as lists threaded through the
computation, and the JavaScript `Infinity` sentinel of the best-score
searches as an `Option` (none = Infinity).  `Array.prototype.sort`, a
stable comparison sort, is modelled as `List.insertionSort` (stable) on
the relation `compare a b <= 0`.
-/

namespace Cerfa

/-- Box kind, from types.ts (`BoxType`). -/
inductive BoxType where
  | cell
  | checkbox
deriving DecidableEq, Repr

/-- Output field type, from types.ts (`FieldType`). -/
inductive FieldType where
  | input
  | checkbox
deriving DecidableEq, Repr

/-- 2D affine matrix, from types.ts (`TransformMatrix`). -/
structure TransformMatrix where
  a : ℚ
  b : ℚ
  c : ℚ
  d : ℚ
  e : ℚ
  f : ℚ
deriving DecidableEq, Repr

/-- Classified rectangle in SVG content coordinates, from types.ts (`SvgBox`). -/
structure SvgBox where
  x : ℚ
  y : ℚ
  width : ℚ
  height : ℚ
  type : BoxType
deriving DecidableEq, Repr

instance : Inhabited SvgBox := ⟨⟨0, 0, 0, 0, BoxType.cell⟩⟩

instance : Inhabited BoxType := ⟨BoxType.cell⟩

/-- Rectangle in PDF space (bottom-left origin, Y-up), from types.ts (`PdfRect`). -/
structure PdfRect where
  x : ℚ
  y : ℚ
  width : ℚ
  height : ℚ
deriving DecidableEq, Repr

/-- Text label in pdftotext coordinates (top-left origin, Y-down), from
types.ts (`Label`).  The text is modelled as a list of characters. -/
structure Label where
  text : List Char
  xMin : ℚ
  yMin : ℚ
  xMax : ℚ
  yMax : ℚ
  page : ℕ
deriving DecidableEq, Repr

/-- A clustered row of boxes, from types.ts (`BoxRow`). -/
structure BoxRow where
  boxes : List SvgBox
  y : ℚ
  type : BoxType
  page : ℕ
deriving DecidableEq, Repr

/-- One candidate field, from group-rows.ts (`FieldGroup`). -/
structure FieldGroup where
  boxes : List SvgBox
  row : BoxRow
  boxCount : ℕ
deriving DecidableEq, Repr

/-- The `props` record of a Field, from types.ts.  Optional JavaScript
properties are modelled with `Option` / a `Bool` that is false when the
property is absent. -/
structure FieldProps where
  label : List Char
  maxLength : Option ℕ
  multiline : Bool
  page : ℕ
  pdfRect : PdfRect
deriving DecidableEq, Repr

/-- Output field definition, from types.ts (`Field`). -/
structure Field where
  key : String
  type : FieldType
  props : FieldProps
deriving DecidableEq, Repr

/-! ### JavaScript Math helpers

`Math.min`, `Math.max` and `Math.abs` are modelled by explicit conditional
definitions; the loops that start from `Infinity` or `-Infinity` and update
through a comparison are modelled by folds over an `Option` accumulator
(`none` = the infinite initial value). -/

/-- `Math.min`. -/
def mathMin (a b : ℚ) : ℚ := if a ≤ b then a else b

/-- `Math.max`. -/
def mathMax (a b : ℚ) : ℚ := if a ≤ b then b else a

/-- `Math.abs`. -/
def mathAbs (a : ℚ) : ℚ := if a < 0 then -a else a

theorem mathAbs_eq_abs (a : ℚ) : mathAbs a = |a| := by
  unfold mathAbs
  split_ifs with h
  · exact (abs_of_neg h).symm
  · exact (abs_of_nonneg (not_lt.mp h)).symm

theorem mathMax_sub_mathMin (a b : ℚ) : mathMax a b - mathMin a b = |a - b| := by
  unfold mathMax mathMin
  split_ifs with h
  · rw [abs_of_nonpos (by linarith)]
    ring
  · rw [abs_of_nonneg (by linarith)]

/-- The `let m = Infinity; for (v of l) if (v < m) m = v` loop shape. -/
def minFold (l : List ℚ) : Option ℚ :=
  l.foldl (fun acc v =>
    match acc with
    | none => some v
    | some m => if v < m then some v else some m) none

/-- The `let m = -Infinity; for (v of l) if (v > m) m = v` loop shape. -/
def maxFold (l : List ℚ) : Option ℚ :=
  l.foldl (fun acc v =>
    match acc with
    | none => some v
    | some m => if v > m then some v else some m) none

/-! ### transform.ts -/

/-- `svgPointToViewport` from transform.ts: apply the affine matrix. -/
def svgPointToViewport (svgX svgY : ℚ) (matrix : TransformMatrix) : ℚ × ℚ :=
  (matrix.a * svgX + matrix.c * svgY + matrix.e,
   matrix.b * svgX + matrix.d * svgY + matrix.f)

/-- `svgBoxToPdfRect` from transform.ts: map the two diagonal corners of the
box through the matrix, take their bounding box in viewport space, then flip
the Y axis by the page height. -/
def svgBoxToPdfRect (box : SvgBox) (matrix : TransformMatrix) (pageHeight : ℚ) :
    PdfRect :=
  let corner1 := svgPointToViewport box.x box.y matrix
  let corner2 := svgPointToViewport (box.x + box.width) (box.y + box.height) matrix
  let vpLeft := mathMin corner1.1 corner2.1
  let vpTop := mathMin corner1.2 corner2.2
  let vpRight := mathMax corner1.1 corner2.1
  let vpBottom := mathMax corner1.2 corner2.2
  let width := vpRight - vpLeft
  let height := vpBottom - vpTop
  { x := vpLeft, y := pageHeight - vpBottom, width := width, height := height }

/-! ### extract-boxes.ts: the one-transform-per-page loop -/

/-- `matricesEqual` from extract-boxes.ts: per-component comparison with a
strict 0.001 tolerance. -/
def matricesEqual (a b : TransformMatrix) : Bool :=
  |a.a - b.a| < 1/1000 && |a.b - b.b| < 1/1000 && |a.c - b.c| < 1/1000 &&
  |a.d - b.d| < 1/1000 && |a.e - b.e| < 1/1000 && |a.f - b.f| < 1/1000

/-- A path of the SVG page that passed every filter of `extractBoxes`
before the transform check: its classified rectangle together with its
resolved effective transform (extract-boxes.ts, lines 40 to 66). -/
structure AcceptedPath where
  box : SvgBox
  t : TransformMatrix
deriving DecidableEq, Repr

/-- One step of the `$(path).each` loop of `extractBoxes`
(extract-boxes.ts, lines 67 to 77): the first accepted box installs its
effective transform, later boxes are kept only when their effective
transform is tolerance-equal to the installed one. -/
def extractBoxesStep (state : Option TransformMatrix × List SvgBox)
    (p : AcceptedPath) : Option TransformMatrix × List SvgBox :=
  match state.1 with
  | none => (some p.t, state.2 ++ [p.box])
  | some t =>
      if matricesEqual t p.t then (some t, state.2 ++ [p.box])
      else (some t, state.2)

/-- The transform-invariant part of `extractBoxes`: fold the loop body over
the accepted paths in document order. -/
def extractBoxesLoop (paths : List AcceptedPath) :
    Option TransformMatrix × List SvgBox :=
  paths.foldl extractBoxesStep (none, [])

/-! ### extract-boxes.ts: page height (lines 20 to 35)

`parseFloat` results are modelled as `Option ℚ`: `none` stands for a
non-finite result (NaN or an infinity), `some v` for the finite value `v`.
`hasVb4` tells whether the viewBox attribute had at least four
whitespace-separated parts; when it does not, the initial value 0 of
`pageHeight` survives to the finiteness-and-positivity check. -/
def pageHeightOf (hasVb4 : Bool) (vb4 heightAttr : Option ℚ) :
    Except String ℚ :=
  let fromViewBox : Option ℚ := if hasVb4 then vb4 else some 0
  let fallback : Except String ℚ :=
    match heightAttr with
    | some w =>
        if 0 < w then Except.ok w
        else Except.error "Could not extract page height from SVG viewBox or height attribute"
    | none => Except.error "Could not extract page height from SVG viewBox or height attribute"
  match fromViewBox with
  | some v => if 0 < v then Except.ok v else fallback
  | none => fallback

/-- The page-height rule in the words of the specification: take the fourth
viewBox value when it parses to a finite positive number, otherwise the
height attribute when it parses to a finite positive number, otherwise fail
(`none`). -/
def specPageHeight (vb4 heightAttr : Option ℚ) : Option ℚ :=
  match vb4 with
  | some v => if 0 < v then some v else
      match heightAttr with
      | some w => if 0 < w then some w else none
      | none => none
  | none =>
      match heightAttr with
      | some w => if 0 < w then some w else none
      | none => none

/-! ### group-rows.ts -/

/-- `Y_TOLERANCE` from group-rows.ts. -/
def Y_TOLERANCE : ℚ := 2

/-- `FIELD_GAP_THRESHOLD` from group-rows.ts. -/
def FIELD_GAP_THRESHOLD : ℚ := 10

/-- Body of the `for` loop of `groupByY` (group-rows.ts, lines 49 to 63):
find the first existing row whose running-average Y is within tolerance and
whose kind matches; append the box to it and recompute the running average,
otherwise push a fresh singleton row at the end. -/
def addToRows (page : ℕ) (rows : List BoxRow) (box : SvgBox) : List BoxRow :=
  match rows with
  | [] => [⟨[box], box.y, box.type, page⟩]
  | r :: rest =>
      if mathAbs (r.y - box.y) ≤ Y_TOLERANCE ∧ r.type = box.type then
        let newBoxes := r.boxes ++ [box]
        ⟨newBoxes, (newBoxes.map SvgBox.y).sum / (newBoxes.length : ℚ), r.type, r.page⟩ :: rest
      else
        r :: addToRows page rest box

/-- `groupByY` from group-rows.ts: stable sort by Y, then fold the
row-clustering loop. -/
def groupByY (boxes : List SvgBox) (page : ℕ) : List BoxRow :=
  let sorted := boxes.insertionSort fun a b => a.y ≤ b.y
  sorted.foldl (addToRows page) []

/-- Inner loop of `splitByXGap` (group-rows.ts, lines 76 to 86): start a new
group whenever the gap between the trailing edge of the previous box and the
leading edge of the current box exceeds the threshold.  `prev` is always the
last box of `cur`. -/
def splitGo (prev : SvgBox) (cur : List SvgBox) : List SvgBox → List (List SvgBox)
  | [] => [cur]
  | c :: rest =>
      if c.x - (prev.x + prev.width) > FIELD_GAP_THRESHOLD then
        cur :: splitGo c [c] rest
      else
        splitGo c (cur ++ [c]) rest

/-- `splitByXGap` from group-rows.ts: split an X-sorted row into field
groups; each group keeps a copy of the row with the boxes replaced. -/
def splitByXGap (sortedBoxes : List SvgBox) (row : BoxRow) : List FieldGroup :=
  match sortedBoxes with
  | [] => []
  | b :: rest =>
      (splitGo b [b] rest).map fun boxes =>
        ⟨boxes, ⟨boxes, row.y, row.type, row.page⟩, boxes.length⟩

/-- The comparator of the final sort of `groupBoxesIntoFields`
(group-rows.ts, lines 36 to 40), read as the relation `compare a b <= 0`:
outside the Y tolerance band compare the first-box Y values, inside it
compare the first-box X values. -/
def fieldLe (a b : FieldGroup) : Prop :=
  if mathAbs (a.boxes.headI.y - b.boxes.headI.y) > Y_TOLERANCE
  then a.boxes.headI.y ≤ b.boxes.headI.y
  else a.boxes.headI.x ≤ b.boxes.headI.x

instance : DecidableRel fieldLe := fun a b => by
  unfold fieldLe
  infer_instance

/-- `groupBoxesIntoFields` from group-rows.ts. -/
def groupBoxesIntoFields (boxes : List SvgBox) (page : ℕ) : List FieldGroup :=
  let rows := groupByY boxes page
  let fields := (rows.map fun row =>
    splitByXGap (row.boxes.insertionSort fun a b => a.x ≤ b.x) row).flatten
  fields.insertionSort fieldLe

/-! ### extract-labels.ts: line grouping -/

/-- A raw word of the pdftotext bbox output (extract-labels.ts, `Word`). -/
structure Word where
  text : List Char
  xMin : ℚ
  yMin : ℚ
  xMax : ℚ
  yMax : ℚ
deriving DecidableEq, Repr

instance : Inhabited Word := ⟨⟨[], 0, 0, 0, 0⟩⟩

/-- `LINE_Y_TOLERANCE` from extract-labels.ts. -/
def LINE_Y_TOLERANCE : ℚ := 2

/-- Loop body of the line-grouping step of `assembleLabels`
(extract-labels.ts, lines 66 to 77).  The incoming word is compared against
the LAST word of the current line (`lines[lines.length - 1]` and then
`prev[prev.length - 1]` in the source); `lastWord` is always the last
element of `cur`. -/
def linesGo (cur : List Word) (lastWord : Word) : List Word → List (List Word)
  | [] => [cur]
  | w :: rest =>
      if mathAbs (w.yMin - lastWord.yMin) ≤ LINE_Y_TOLERANCE then
        linesGo (cur ++ [w]) w rest
      else
        cur :: linesGo [w] w rest

/-- The line-grouping step of `assembleLabels` applied to the already
sorted word list. -/
def groupWordsIntoLines : List Word → List (List Word)
  | [] => []
  | w :: rest => linesGo [w] w rest

/-- Modelled from the spec: the grouping rule in the words of the claim
for comparison with `groupWordsIntoLines` — a word joins the current line
iff its Y is within the tolerance of the ANCHOR Y, the Y of the word that
started the line. -/
def linesAnchorGo (cur : List Word) (anchor : Word) : List Word → List (List Word)
  | [] => [cur]
  | w :: rest =>
      if mathAbs (w.yMin - anchor.yMin) ≤ LINE_Y_TOLERANCE then
        linesAnchorGo (cur ++ [w]) anchor rest
      else
        cur :: linesAnchorGo [w] w rest

/-- Modelled from the spec: anchor-based line grouping. -/
def groupWordsIntoLinesAnchor : List Word → List (List Word)
  | [] => []
  | w :: rest => linesAnchorGo [w] w rest

/-! ### extract-dot-lines.ts -/

/-- The JavaScript regex character class `\s` (ECMAScript WhiteSpace and
LineTerminator characters). -/
def jsWhitespace (ch : Char) : Bool :=
  (ch.toNat ∈ ([9, 10, 11, 12, 13, 32, 0xa0, 0x1680, 0x2028, 0x2029,
    0x202f, 0x205f, 0x3000, 0xfeff] : List ℕ))
  || decide (0x2000 ≤ ch.toNat ∧ ch.toNat ≤ 0x200a)

/-- `MIN_DOT_COUNT` from extract-dot-lines.ts. -/
def MIN_DOT_COUNT : ℕ := 10

/-- `DOT_GROUP_Y_GAP` from extract-dot-lines.ts. -/
def DOT_GROUP_Y_GAP : ℚ := 20

/-- `LABEL_Y_MAX_DISTANCE` from extract-dot-lines.ts (the dot-leader
detector constant; the constant of the same name in map-labels.ts is
modelled separately below). -/
def LABEL_Y_MAX_DISTANCE_DOT : ℚ := 30

/-- The character class of the regex `/^[.\s…]+$/` in `isDotLine`:
period, whitespace, or the horizontal ellipsis U+2026. -/
def dotLineClass (ch : Char) : Bool :=
  ch == '.' || jsWhitespace ch || ch == '…'

/-- Semantics of `/^[.\s…]+$/.test(text)`: the whole string is a
non-empty run of class characters. -/
def matchesDotLineRe (text : List Char) : Bool :=
  !text.isEmpty && text.all dotLineClass

/-- `isDotLine` from extract-dot-lines.ts: the regex must match and the
number of literal periods (`text.match(/\./g)`) must reach the minimum. -/
def isDotLine (text : List Char) : Bool :=
  if !matchesDotLineRe text then false
  else decide (MIN_DOT_COUNT ≤ (text.filter fun c => c == '.').length)

/-- Modelled from the spec, for comparison with `isDotLine`: true iff the
text is non-empty, consists solely of periods, the horizontal ellipsis and
whitespace, and contains at least 10 literal periods. -/
def specIsDotLine (text : List Char) : Bool :=
  decide (text ≠ []) &&
  (text.all fun c => c == '.' || c == '…' || jsWhitespace c) &&
  decide (10 ≤ text.countP fun c => c == '.')

/-- Strict comparison against the best score so far, where `none` models
the JavaScript `Infinity` initial value. -/
def scoreLt (s : ℚ) : Option ℚ → Prop
  | none => True
  | some t => s < t

instance (s : ℚ) : (o : Option ℚ) → Decidable (scoreLt s o)
  | none => isTrue trivial
  | some t => inferInstanceAs (Decidable (s < t))

/-- The indexed loop of `findTextLabelAbove` (extract-dot-lines.ts, lines
133 to 151): skip consumed indices, require the label to lie above the
group top within the max distance, require horizontal overlap or proximity
to the left, and keep the strictly best score. -/
def findTextAboveGo (groupTopY groupXMin groupXMax : ℚ) (consumed : List ℕ) :
    List Label → ℕ → Option Label → Option ℚ → Option Label
  | [], _, best, _ => best
  | lbl :: rest, i, best, bestDistance =>
      if i ∈ consumed then
        findTextAboveGo groupTopY groupXMin groupXMax consumed rest (i + 1) best bestDistance
      else
        let yDistance := groupTopY - lbl.yMax
        if yDistance < 0 ∨ yDistance > LABEL_Y_MAX_DISTANCE_DOT then
          findTextAboveGo groupTopY groupXMin groupXMax consumed rest (i + 1) best bestDistance
        else
          let hasOverlap : Prop := lbl.xMin < groupXMax ∧ groupXMin < lbl.xMax
          let isLeftOf : Prop := lbl.xMax ≤ groupXMin ∧ groupXMin - lbl.xMax < 50
          if ¬hasOverlap ∧ ¬isLeftOf then
            findTextAboveGo groupTopY groupXMin groupXMax consumed rest (i + 1) best bestDistance
          else
            let score := yDistance + (if hasOverlap then 0 else 20)
            if scoreLt score bestDistance then
              findTextAboveGo groupTopY groupXMin groupXMax consumed rest (i + 1) (some lbl) (some score)
            else
              findTextAboveGo groupTopY groupXMin groupXMax consumed rest (i + 1) best bestDistance

/-- `findTextLabelAbove` from extract-dot-lines.ts. -/
def findTextLabelAbove (labels : List Label) (groupTopY groupXMin groupXMax : ℚ)
    (consumed : List ℕ) : Option Label :=
  findTextAboveGo groupTopY groupXMin groupXMax consumed labels 0 none none

/-- Grouping of consecutive dot-line labels by Y proximity
(extract-dot-lines.ts, lines 56 to 68); the comparison is against the
previous dot line in document order, which is always the last element of
`cur`. -/
def dotGroupsGo (prev : ℕ × Label) (cur : List (ℕ × Label)) :
    List (ℕ × Label) → List (List (ℕ × Label))
  | [] => [cur]
  | p :: rest =>
      if mathAbs (p.2.yMin - prev.2.yMin) ≤ DOT_GROUP_Y_GAP then
        dotGroupsGo p (cur ++ [p]) rest
      else
        cur :: dotGroupsGo p [p] rest

/-! ### map-labels.ts -/

/-- `toFieldType` from map-labels.ts. -/
def toFieldType (boxType : BoxType) : FieldType :=
  match boxType with
  | BoxType.cell => FieldType.input
  | BoxType.checkbox => FieldType.checkbox

/-- `LABEL_Y_MAX_DISTANCE` from map-labels.ts (25 PDF points). -/
def LABEL_Y_MAX_DISTANCE : ℚ := 25

/-- Result record of `labelToPdfCoords` from map-labels.ts. -/
structure LabelPdfCoords where
  xMin : ℚ
  xMax : ℚ
  yBottom : ℚ
  yTop : ℚ
deriving DecidableEq, Repr

/-- `labelToPdfCoords` from map-labels.ts: flip the pdftotext Y-down box
into PDF bottom-left coordinates. -/
def labelToPdfCoords (label : Label) (pageHeight : ℚ) : LabelPdfCoords :=
  { xMin := label.xMin
    xMax := label.xMax
    yBottom := pageHeight - label.yMax
    yTop := pageHeight - label.yMin }

/-- The loop of `findBestLabel` (map-labels.ts, lines 93 to 115). -/
def findBestGo (fieldTop fieldLeft fieldRight pageHeight : ℚ) :
    List Label → Option Label → Option ℚ → Option Label
  | [], best, _ => best
  | label :: rest, best, bestScore =>
      let pdfLabel := labelToPdfCoords label pageHeight
      let yDistance := pdfLabel.yBottom - fieldTop
      if yDistance < 0 ∨ yDistance > LABEL_Y_MAX_DISTANCE then
        findBestGo fieldTop fieldLeft fieldRight pageHeight rest best bestScore
      else
        let hasOverlap : Prop := pdfLabel.xMin < fieldRight ∧ fieldLeft < pdfLabel.xMax
        let isLeftOf : Prop := pdfLabel.xMax ≤ fieldLeft ∧ fieldLeft - pdfLabel.xMax < 50
        if ¬hasOverlap ∧ ¬isLeftOf then
          findBestGo fieldTop fieldLeft fieldRight pageHeight rest best bestScore
        else
          let score := yDistance + (if hasOverlap then 0 else 20)
          if scoreLt score bestScore then
            findBestGo fieldTop fieldLeft fieldRight pageHeight rest (some label) (some score)
          else
            findBestGo fieldTop fieldLeft fieldRight pageHeight rest best bestScore

/-- `findBestLabel` from map-labels.ts. -/
def findBestLabel (fieldRect : PdfRect) (labels : List Label) (pageHeight : ℚ) :
    Option Label :=
  findBestGo (fieldRect.y + fieldRect.height) fieldRect.x
    (fieldRect.x + fieldRect.width) pageHeight labels none none

/-- `computeGroupPdfRect` from map-labels.ts: union of the individually
transformed member rectangles.  The defaults of the empty fold are never
reached for the non-empty groups the pipeline produces (JavaScript would
yield an infinite rectangle there). -/
def computeGroupPdfRect (group : FieldGroup) (transform : TransformMatrix)
    (pageHeight : ℚ) : PdfRect :=
  let rects := group.boxes.map fun box => svgBoxToPdfRect box transform pageHeight
  let x := (minFold (rects.map PdfRect.x)).getD 0
  let y := (minFold (rects.map PdfRect.y)).getD 0
  let maxX := (maxFold (rects.map fun r => r.x + r.width)).getD 0
  let maxY := (maxFold (rects.map fun r => r.y + r.height)).getD 0
  { x := x, y := y, width := maxX - x, height := maxY - y }

/-- Decomposition table of `String.prototype.normalize` with NFD, restricted
to the accented Latin letters that occur in the forms this tool processes;
identity on every other character. -/
def nfdDecompose (c : Char) : List Char :=
  match c with
  | 'à' => ['a', '̀'] | 'â' => ['a', '̂'] | 'ä' => ['a', '̈']
  | 'ç' => ['c', '̧'] | 'é' => ['e', '́'] | 'è' => ['e', '̀']
  | 'ê' => ['e', '̂'] | 'ë' => ['e', '̈'] | 'î' => ['i', '̂']
  | 'ï' => ['i', '̈'] | 'ô' => ['o', '̂'] | 'ö' => ['o', '̈']
  | 'ù' => ['u', '̀'] | 'û' => ['u', '̂'] | 'ü' => ['u', '̈']
  | 'À' => ['A', '̀'] | 'Â' => ['A', '̂'] | 'Ç' => ['C', '̧']
  | 'É' => ['E', '́'] | 'È' => ['E', '̀'] | 'Ê' => ['E', '̂']
  | 'Î' => ['I', '̂'] | 'Ô' => ['O', '̂'] | 'Û' => ['U', '̂']
  | _ => [c]

/-- The combining-diacritics range removed by `replace(/[̀-ͯ]/g, '')`. -/
def isCombiningMark (c : Char) : Bool :=
  decide (0x300 ≤ c.toNat ∧ c.toNat ≤ 0x36f)

/-- The character class kept by `replace(/[^a-zA-Z0-9\s]/g, '')`. -/
def isNameChar (c : Char) : Bool :=
  c.isAlpha || c.isDigit || jsWhitespace c

/-- `String.prototype.trim`: drop leading and trailing whitespace. -/
def trimList (l : List Char) : List Char :=
  ((l.dropWhile jsWhitespace).reverse.dropWhile jsWhitespace).reverse

/-- `labelText.replace(/\s*:\s*$/, '')`: when the last non-whitespace
character is a colon, remove it together with the surrounding trailing
whitespace; otherwise leave the text unchanged. -/
def stripTrailingColonWs (l : List Char) : List Char :=
  let t := l.reverse.dropWhile jsWhitespace
  match t with
  | ':' :: t2 => (t2.dropWhile jsWhitespace).reverse
  | _ => l

/-- `split(/\s+/)` on a trimmed string: maximal runs of non-whitespace
characters.  On the empty string JavaScript returns one empty part, which
downstream collapses to the same empty join, so the empty list is used
here. -/
def splitWsGo (cur : List Char) : List Char → List (List Char)
  | [] => if cur.isEmpty then [] else [cur]
  | c :: rest =>
      if jsWhitespace c then
        if cur.isEmpty then splitWsGo [] rest else cur :: splitWsGo [] rest
      else
        splitWsGo (cur ++ [c]) rest

/-- Split on whitespace runs. -/
def splitWs (l : List Char) : List (List Char) :=
  splitWsGo [] l

/-- The per-word camel-casing of `generateFieldName`: the first word is
lower-cased whole, each later word gets its first character upper-cased and
the rest lower-cased. -/
def camelWord (i : ℕ) (w : List Char) : List Char :=
  if i = 0 then w.map Char.toLower
  else
    match w with
    | [] => []
    | c :: rest => c.toUpper :: rest.map Char.toLower

/-- `generateFieldName` from map-labels.ts.  The `_type` parameter is
unused in the source as well. -/
def generateFieldName (labelText : List Char) (_type : BoxType) (page : ℕ) : String :=
  if labelText.isEmpty then "p" ++ toString page ++ "_field"
  else
    let cleaned := trimList (stripTrailingColonWs labelText)
    let filtered := ((cleaned.flatMap nfdDecompose).filter fun c => !isCombiningMark c).filter isNameChar
    let words := splitWs (trimList filtered)
    let camel := (words.enum.map fun p => camelWord p.1 p.2).flatten
    if camel.isEmpty then "p" ++ toString page ++ "_field"
    else "p" ++ toString page ++ "_" ++ String.mk camel

/-- `deduplicateName` from map-labels.ts.  The unbounded `while` loop is
modelled as the search for the first unused suffix among the first
`used.length + 1` candidates; by pigeonhole one of them is always free, so
the fallback branch is unreachable. -/
def deduplicateName (baseName : String) (used : List String) : String :=
  if baseName ∉ used then baseName
  else
    match (List.range (used.length + 1)).find? (fun j => !(used.contains (baseName ++ "_" ++ toString (j + 2)))) with
    | some j => baseName ++ "_" ++ toString (j + 2)
    | none => baseName

/-- The loop of `mapLabelsToFields` (map-labels.ts, lines 41 to 62), with
the local `usedNames` set threaded explicitly. -/
def mapLabelsGo (labels : List Label) (transform : TransformMatrix) (page : ℕ)
    (pageHeight : ℚ) : List FieldGroup → List String → List Field
  | [], _ => []
  | group :: rest, usedNames =>
      let pdfRect := computeGroupPdfRect group transform pageHeight
      let bestLabel := findBestLabel pdfRect labels pageHeight
      let labelText := (bestLabel.map Label.text).getD []
      let baseName := generateFieldName labelText group.row.type page
      let name := deduplicateName baseName usedNames
      let field : Field :=
        { key := name
          type := toFieldType group.row.type
          props :=
            { label := labelText
              maxLength := if group.row.type = BoxType.cell then some group.boxCount else none
              multiline := false
              page := page
              pdfRect := pdfRect } }
      field :: mapLabelsGo labels transform page pageHeight rest (usedNames ++ [name])

/-- `mapLabelsToFields` from map-labels.ts.  The function takes FIVE
parameters and starts from a fresh, empty `usedNames` set on every call
(map-labels.ts, line 39); it has no parameter for a caller-provided set. -/
def mapLabelsToFields (fieldGroups : List FieldGroup) (labels : List Label)
    (transform : TransformMatrix) (page : ℕ) (pageHeight : ℚ) : List Field :=
  mapLabelsGo labels transform page pageHeight fieldGroups []

/-! ### extract-dot-lines.ts: the field producer -/

/-- The per-group loop of `extractDotLineFields` (extract-dot-lines.ts,
lines 71 to 114), threading the consumed index set and the used-names
set. -/
def extractDotLineFieldsGo (labels : List Label) (page : ℕ) (pageHeight : ℚ) :
    List (List (ℕ × Label)) → List ℕ → List String → List Field × List ℕ × List String
  | [], consumed, names => ([], consumed, names)
  | group :: rest, consumed, names =>
      let consumed2 := consumed ++ group.map Prod.fst
      let xMin := (minFold (group.map fun p => p.2.xMin)).getD 0
      let yMin := (minFold (group.map fun p => p.2.yMin)).getD 0
      let xMax := (maxFold (group.map fun p => p.2.xMax)).getD 0
      let yMax := (maxFold (group.map fun p => p.2.yMax)).getD 0
      let pdfRect : PdfRect :=
        { x := xMin, y := pageHeight - yMax, width := xMax - xMin, height := yMax - yMin }
      let bestLabel := findTextLabelAbove labels yMin xMin xMax consumed2
      let labelText := (bestLabel.map Label.text).getD []
      let isMultiline := decide (1 < group.length)
      let baseName := generateFieldName labelText BoxType.cell page
      let name := deduplicateName baseName names
      let field : Field :=
        { key := name
          type := FieldType.input
          props :=
            { label := labelText
              maxLength := none
              multiline := isMultiline
              page := page
              pdfRect := pdfRect } }
      let result := extractDotLineFieldsGo labels page pageHeight rest consumed2 (names ++ [name])
      (field :: result.1, result.2)

/-- `extractDotLineFields` from extract-dot-lines.ts.  The result carries
the produced fields, the consumed label indices, and the used-names set
(which the source mutates in place through the caller-supplied `Set`). -/
def extractDotLineFields (labels : List Label) (page : ℕ) (pageHeight : ℚ)
    (usedNames : List String) : List Field × List ℕ × List String :=
  let dotPairs := labels.enum.filter fun p => isDotLine p.2.text
  match dotPairs with
  | [] => ([], [], usedNames)
  | p :: rest =>
      extractDotLineFieldsGo labels page pageHeight (dotGroupsGo p [p] rest) [] usedNames

/-! ### cli.ts: the per-page fragment of `convert` (lines 44 to 77) -/

/-- The body of the page loop of `convert` for one page: seed the used-names
set from the fields of earlier pages, detect dot-line fields, filter the
consumed labels out, and run the label-to-field matcher on the remaining
labels.  cli.ts line 70 passes the used-names set as a SIXTH argument to
`mapLabelsToFields`, but that function declares only five parameters, so
JavaScript drops the extra argument; the model reflects the five-parameter
callee. -/
def convertPageFields (labels : List Label) (boxes : List SvgBox)
    (transform : Option TransformMatrix) (pageHeight : ℚ) (page : ℕ)
    (allFieldsSoFar : List Field) : List Field :=
  let usedNames := allFieldsSoFar.map Field.key
  let dotResult := extractDotLineFields labels page pageHeight usedNames
  let dotFields := dotResult.1
  let consumedLabelIndices := dotResult.2.1
  let remainingLabels := (labels.enum.filter fun p => p.1 ∉ consumedLabelIndices).map Prod.snd
  match transform with
  | none => dotFields
  | some t =>
      if boxes.isEmpty then dotFields
      else
        let fieldGroups := groupBoxesIntoFields boxes page
        let fields := mapLabelsToFields fieldGroups remainingLabels t page pageHeight
        fields ++ dotFields

/-! ## Theorems -/

/-! ### C3: positivity of `svgBoxToPdfRect` -/

/-- C3 counterexample: the claim quantifies over every invertible matrix,
but `svgBoxToPdfRect` maps only the two diagonal corners of the box, so a
rotation-like matrix (here a scaled 45-degree rotation, determinant 2, so
non-degenerate) sends both diagonal corners of the unit box to the same X
coordinate and the returned width is 0, not positive. -/
theorem svgBoxToPdfRect_claim_false :
    ((⟨1, 1, -1, 1, 0, 0⟩ : TransformMatrix).a * (⟨1, 1, -1, 1, 0, 0⟩ : TransformMatrix).d
        - (⟨1, 1, -1, 1, 0, 0⟩ : TransformMatrix).b * (⟨1, 1, -1, 1, 0, 0⟩ : TransformMatrix).c ≠ 0)
    ∧ (0 : ℚ) < (⟨0, 0, 1, 1, BoxType.cell⟩ : SvgBox).width
    ∧ (0 : ℚ) < (⟨0, 0, 1, 1, BoxType.cell⟩ : SvgBox).height
    ∧ (svgBoxToPdfRect ⟨0, 0, 1, 1, BoxType.cell⟩ ⟨1, 1, -1, 1, 0, 0⟩ 10).width = 0 := by
  refine ⟨by norm_num, by norm_num, by norm_num, ?_⟩
  norm_num [svgBoxToPdfRect, svgPointToViewport, mathMin, mathMax]

/-- C3 (amended): for every box with positive width and height and every
page height, `svgBoxToPdfRect` returns a rectangle with strictly positive
width and height whenever the two mapped diagonal corners differ in each
coordinate, that is `a*w + c*h` and `b*w + d*h` are non-zero (which holds in
particular for every non-degenerate axis-aligned matrix, but not for every
invertible matrix). -/
theorem svgBoxToPdfRect_pos (box : SvgBox) (m : TransformMatrix) (pageHeight : ℚ)
    (hw : 0 < box.width) (hh : 0 < box.height)
    (hx : m.a * box.width + m.c * box.height ≠ 0)
    (hy : m.b * box.width + m.d * box.height ≠ 0) :
    0 < (svgBoxToPdfRect box m pageHeight).width
    ∧ 0 < (svgBoxToPdfRect box m pageHeight).height := by
  constructor
  · have hA : (svgBoxToPdfRect box m pageHeight).width
        = |(m.a * (box.x + box.width) + m.c * (box.y + box.height) + m.e)
            - (m.a * box.x + m.c * box.y + m.e)| := by
      simp only [svgBoxToPdfRect, svgPointToViewport]
      rw [mathMax_sub_mathMin, abs_sub_comm]
    rw [hA]
    have h2 : (m.a * (box.x + box.width) + m.c * (box.y + box.height) + m.e)
        - (m.a * box.x + m.c * box.y + m.e) = m.a * box.width + m.c * box.height := by
      ring
    rw [h2]
    exact abs_pos.mpr hx
  · have hA : (svgBoxToPdfRect box m pageHeight).height
        = |(m.b * (box.x + box.width) + m.d * (box.y + box.height) + m.f)
            - (m.b * box.x + m.d * box.y + m.f)| := by
      simp only [svgBoxToPdfRect, svgPointToViewport]
      rw [mathMax_sub_mathMin, abs_sub_comm]
    rw [hA]
    have h2 : (m.b * (box.x + box.width) + m.d * (box.y + box.height) + m.f)
        - (m.b * box.x + m.d * box.y + m.f) = m.b * box.width + m.d * box.height := by
      ring
    rw [h2]
    exact abs_pos.mpr hy

/-- Witness for `svgBoxToPdfRect_pos` at the identity matrix and the unit
box. -/
theorem svgBoxToPdfRect_pos_witness :
    0 < (svgBoxToPdfRect ⟨0, 0, 1, 1, BoxType.cell⟩ ⟨1, 0, 0, 1, 0, 0⟩ 10).width
    ∧ 0 < (svgBoxToPdfRect ⟨0, 0, 1, 1, BoxType.cell⟩ ⟨1, 0, 0, 1, 0, 0⟩ 10).height :=
  svgBoxToPdfRect_pos ⟨0, 0, 1, 1, BoxType.cell⟩ ⟨1, 0, 0, 1, 0, 0⟩ 10
    (by norm_num) (by norm_num) (by norm_num) (by norm_num)

/-! ### C4: one effective transform per page -/

/-- Helper: once a transform is installed, the loop keeps exactly the boxes
whose effective transform is tolerance-equal to it, in order, and never
changes the installed transform. -/
theorem extractBoxesLoop_go (t : TransformMatrix) (acc : List SvgBox) :
    ∀ l : List AcceptedPath,
      l.foldl extractBoxesStep (some t, acc)
        = (some t, acc ++ (l.filter fun q => matricesEqual t q.t).map AcceptedPath.box) := by
  intro l
  induction l generalizing acc with
  | nil => simp
  | cons q l ih =>
      by_cases h : matricesEqual t q.t
      · simp [extractBoxesStep, h, ih]
      · simp [extractBoxesStep, h, ih]

/-- C4: the first accepted box installs its effective transform as the page
transform, which is returned unchanged (never merged or averaged); every
later accepted box is kept iff its effective transform is within the 0.001
per-component tolerance of the first one, and dropped otherwise. -/
theorem extractBoxesLoop_spec (p : AcceptedPath) (rest : List AcceptedPath) :
    extractBoxesLoop (p :: rest)
      = (some p.t,
          p.box :: (rest.filter fun q => matricesEqual p.t q.t).map AcceptedPath.box) := by
  have h0 : extractBoxesStep (none, []) p = (some p.t, [p.box]) := rfl
  simp only [extractBoxesLoop, List.foldl_cons, h0]
  simpa using extractBoxesLoop_go p.t [p.box] rest

/-! ### C5: page height extraction -/

/-- C5: `extractBoxes` computes the page height exactly as specified: the
fourth viewBox value when it parses to a finite positive number, else the
height attribute when it parses to a finite positive number, else it throws
the page-height error — so it throws iff neither parses to a finite
positive value, and otherwise returns that value. -/
theorem pageHeightOf_spec (hasVb4 : Bool) (vb4 heightAttr : Option ℚ) :
    pageHeightOf hasVb4 vb4 heightAttr
      = match specPageHeight (if hasVb4 then vb4 else none) heightAttr with
        | some v => Except.ok v
        | none =>
            Except.error "Could not extract page height from SVG viewBox or height attribute" := by
  cases hasVb4 with
  | false =>
      cases heightAttr with
      | none => simp [pageHeightOf, specPageHeight]
      | some w =>
          by_cases hw : 0 < w <;> simp [pageHeightOf, specPageHeight, hw]
  | true =>
      cases vb4 with
      | none =>
          cases heightAttr with
          | none => simp [pageHeightOf, specPageHeight]
          | some w =>
              by_cases hw : 0 < w <;> simp [pageHeightOf, specPageHeight, hw]
      | some v =>
          by_cases hv : 0 < v
          · simp [pageHeightOf, specPageHeight, hv]
          · cases heightAttr with
            | none => simp [pageHeightOf, specPageHeight, hv]
            | some w =>
                by_cases hw : 0 < w <;> simp [pageHeightOf, specPageHeight, hv, hw]

/-! ### C9: `isDotLine` -/

/-- Helper: the two spellings of the dot-line character class agree. -/
theorem dotLineClass_eq (c : Char) :
    dotLineClass c = (c == '.' || c == '…' || jsWhitespace c) := by
  unfold dotLineClass
  cases h1 : (c == '.') <;> cases h2 : jsWhitespace c <;> cases h3 : (c == '…') <;> simp [h1, h2, h3]

/-- Helper: `all` over the two spellings of the class agree. -/
theorem all_dotLineClass_eq (text : List Char) :
    text.all dotLineClass = text.all fun c => c == '.' || c == '…' || jsWhitespace c := by
  induction text with
  | nil => rfl
  | cons c cs ih => simp [List.all_cons, dotLineClass_eq, ih]

/-- C9: `isDotLine` returns true iff the string is non-empty, every
character is a period, the horizontal ellipsis U+2026 or whitespace, and at
least 10 literal periods occur; in particular it is false for short dot
runs and for text mixing letters with dots. -/
theorem isDotLine_spec :
    (∀ text, isDotLine text = specIsDotLine text)
    ∧ isDotLine (List.replicate 3 '.') = false
    ∧ isDotLine (List.replicate 5 '.') = false
    ∧ isDotLine ("Other specify".toList ++ List.replicate 12 '.') = false
    ∧ isDotLine (List.replicate 10 '.') = true := by
  refine ⟨?_, by decide, by decide, by decide, by decide⟩
  intro text
  unfold isDotLine specIsDotLine matchesDotLineRe MIN_DOT_COUNT
  rw [List.countP_eq_length_filter, all_dotLineClass_eq]
  by_cases hempty : text = []
  · subst hempty
    simp
  · have h1 : text.isEmpty = false := by
      simp [List.isEmpty_iff, hempty]
    cases hall : text.all fun c => c == '.' || c == '…' || jsWhitespace c with
    | false => simp [h1, hempty, hall]
    | true => simp [h1, hempty, hall]

/-! ### C2: the two best-label searches -/

/-- C2 counterexample: the two searches do not use the same maximum
vertical distance.  With page height 100, a dot group whose top edge is at
Y-down 50 corresponds to a field whose PDF-space top edge is at 100 - 50 =
50 (here the rectangle (0, 50, 10, 0)), and both targets span X in [0, 10].
The label below has bottom edge at Y-down 23, i.e. vertical distance 27:
the dot-leader detector (maximum 30) accepts it, the matcher (maximum 25)
rejects it and returns no label. -/
theorem findBestLabel_claim_false :
    findTextLabelAbove [⟨['L'], 0, 13, 10, 23, 1⟩] 50 0 10 []
        = some ⟨['L'], 0, 13, 10, 23, 1⟩
    ∧ findBestLabel ⟨0, 50, 10, 0⟩ [⟨['L'], 0, 13, 10, 23, 1⟩] 100 = none := by
  constructor
  · norm_num [findTextLabelAbove, findTextAboveGo, scoreLt, LABEL_Y_MAX_DISTANCE_DOT]
  · norm_num [findBestLabel, findBestGo, labelToPdfCoords, scoreLt, LABEL_Y_MAX_DISTANCE]

/-- Helper for C2: step-level equivalence of the two searches.  Under the
coordinate correspondence (field top = pageHeight - group top, same X-span,
empty consumed set), and assuming no label has a vertical distance in the
gap (25, 30] between the two maximum distances, the two loops compute the
same result from equal accumulators. -/
theorem findBestGo_eq_findTextAboveGo (g pageHeight xMin xMax : ℚ) :
    ∀ (labels : List Label) (i : ℕ) (best : Option Label) (score : Option ℚ),
      (∀ lbl ∈ labels,
        ¬ (LABEL_Y_MAX_DISTANCE < g - lbl.yMax ∧ g - lbl.yMax ≤ LABEL_Y_MAX_DISTANCE_DOT)) →
      findBestGo (pageHeight - g) xMin xMax pageHeight labels best score
        = findTextAboveGo g xMin xMax [] labels i best score := by
  intro labels
  induction labels with
  | nil => intro i best score _; rfl
  | cons lbl rest ih =>
      intro i best score hgap
      have hrest := fun l hl => hgap l (List.mem_cons_of_mem _ hl)
      have hlbl := hgap lbl (List.mem_cons_self _ _)
      rw [LABEL_Y_MAX_DISTANCE, LABEL_Y_MAX_DISTANCE_DOT] at hlbl
      simp only [findBestGo, findTextAboveGo, labelToPdfCoords, List.not_mem_nil,
        if_false, LABEL_Y_MAX_DISTANCE, LABEL_Y_MAX_DISTANCE_DOT]
      have hyd : pageHeight - lbl.yMax - (pageHeight - g) = g - lbl.yMax := by ring
      rw [hyd]
      rcases lt_or_le (g - lbl.yMax) 0 with hneg | hpos
      · rw [if_pos (show g - lbl.yMax < 0 ∨ g - lbl.yMax > 25 from Or.inl hneg),
          if_pos (show g - lbl.yMax < 0 ∨ g - lbl.yMax > 30 from Or.inl hneg)]
        exact ih _ _ _ hrest
      · by_cases h25 : g - lbl.yMax > 25
        · have h30 : g - lbl.yMax > 30 := by
            by_contra hle
            exact hlbl ⟨h25, le_of_not_lt hle⟩
          rw [if_pos (show g - lbl.yMax < 0 ∨ g - lbl.yMax > 25 from Or.inr h25),
            if_pos (show g - lbl.yMax < 0 ∨ g - lbl.yMax > 30 from Or.inr h30)]
          exact ih _ _ _ hrest
        · have hle25 : g - lbl.yMax ≤ 25 := le_of_not_lt h25
          have hn25 : ¬ (g - lbl.yMax < 0 ∨ g - lbl.yMax > 25) := by
            push_neg
            exact ⟨hpos, hle25⟩
          have hn30 : ¬ (g - lbl.yMax < 0 ∨ g - lbl.yMax > 30) := by
            push_neg
            exact ⟨hpos, by linarith⟩
          rw [if_neg hn25, if_neg hn30]
          by_cases hskip :
              ¬ (lbl.xMin < xMax ∧ xMin < lbl.xMax) ∧ ¬ (lbl.xMax ≤ xMin ∧ xMin - lbl.xMax < 50)
          · rw [if_pos hskip, if_pos hskip]
            exact ih _ _ _ hrest
          · rw [if_neg hskip, if_neg hskip]
            by_cases hsc : scoreLt
                (g - lbl.yMax + if lbl.xMin < xMax ∧ xMin < lbl.xMax then 0 else 20) score
            · rw [if_pos hsc, if_pos hsc]
              exact ih _ _ _ hrest
            · rw [if_neg hsc, if_neg hsc]
              exact ih _ _ _ hrest

/-- C2 (amended): the matcher best-label search and the dot-leader caption
search implement the same directional rule — same above-the-target
condition, same horizontal overlap-or-within-50-to-the-left condition, same
score (vertical distance plus 20 without overlap), same strict-minimum
first-wins selection — EXCEPT for the maximum vertical distance, which is
25 in the matcher and 30 in the detector.  Whenever no label of the pool
falls in the gap (25, 30] of vertical distances (and the consumed set is
empty), the two searches return the same label. -/
theorem findBestLabel_eq_findTextLabelAbove (labels : List Label)
    (g xMin xMax pageHeight : ℚ) (rect : PdfRect)
    (hx : rect.x = xMin) (hw : rect.x + rect.width = xMax)
    (hT : rect.y + rect.height = pageHeight - g)
    (hgap : ∀ lbl ∈ labels,
      ¬ (LABEL_Y_MAX_DISTANCE < g - lbl.yMax ∧ g - lbl.yMax ≤ LABEL_Y_MAX_DISTANCE_DOT)) :
    findBestLabel rect labels pageHeight = findTextLabelAbove labels g xMin xMax [] := by
  unfold findBestLabel findTextLabelAbove
  rw [hT, hw, hx]
  exact findBestGo_eq_findTextAboveGo g pageHeight xMin xMax labels 0 none none hgap

/-- Witness for `findBestLabel_eq_findTextLabelAbove`: a label at vertical
distance 10 is found by both searches. -/
theorem findBestLabel_eq_findTextLabelAbove_witness :
    findBestLabel ⟨0, 50, 10, 0⟩ [⟨['L'], 0, 30, 10, 40, 1⟩] 100
      = findTextLabelAbove [⟨['L'], 0, 30, 10, 40, 1⟩] 50 0 10 [] :=
  findBestLabel_eq_findTextLabelAbove [⟨['L'], 0, 30, 10, 40, 1⟩] 50 0 10 100
    ⟨0, 50, 10, 0⟩ rfl (by norm_num) (by norm_num)
    (by
      intro lbl hl
      simp only [List.mem_singleton] at hl
      subst hl
      norm_num [LABEL_Y_MAX_DISTANCE, LABEL_Y_MAX_DISTANCE_DOT])

/-! ### C8: line grouping in the label assembler -/

/-- C8 counterexample: with sorted words at Y 0, 3/2 and 3, the source
grouping keeps all three in one line, because each word is compared against
the LAST word of the line, not against the anchor word that started it: the
third word is 3 units away from the anchor, beyond the 2-unit tolerance,
yet joins.  The anchor-based rule of the claim would start a new line
there. -/
theorem linesGo_anchor_claim_false :
    groupWordsIntoLines [⟨['a'], 0, 0, 5, 5⟩, ⟨['b'], 10, 3/2, 15, 5⟩, ⟨['c'], 20, 3, 25, 5⟩]
        = [[⟨['a'], 0, 0, 5, 5⟩, ⟨['b'], 10, 3/2, 15, 5⟩, ⟨['c'], 20, 3, 25, 5⟩]]
    ∧ ¬ (∀ l ∈ groupWordsIntoLines
          [⟨['a'], 0, 0, 5, 5⟩, ⟨['b'], 10, 3/2, 15, 5⟩, ⟨['c'], 20, 3, 25, 5⟩],
          ∀ b ∈ l, mathAbs (b.yMin - l.headI.yMin) ≤ LINE_Y_TOLERANCE)
    ∧ groupWordsIntoLines [⟨['a'], 0, 0, 5, 5⟩, ⟨['b'], 10, 3/2, 15, 5⟩, ⟨['c'], 20, 3, 25, 5⟩]
        ≠ groupWordsIntoLinesAnchor
            [⟨['a'], 0, 0, 5, 5⟩, ⟨['b'], 10, 3/2, 15, 5⟩, ⟨['c'], 20, 3, 25, 5⟩] := by
  have h1 : groupWordsIntoLines
      [⟨['a'], 0, 0, 5, 5⟩, ⟨['b'], 10, 3/2, 15, 5⟩, ⟨['c'], 20, 3, 25, 5⟩]
      = [[⟨['a'], 0, 0, 5, 5⟩, ⟨['b'], 10, 3/2, 15, 5⟩, ⟨['c'], 20, 3, 25, 5⟩]] := by
    norm_num [groupWordsIntoLines, linesGo, mathAbs, LINE_Y_TOLERANCE]
  have h2 : groupWordsIntoLinesAnchor
      [⟨['a'], 0, 0, 5, 5⟩, ⟨['b'], 10, 3/2, 15, 5⟩, ⟨['c'], 20, 3, 25, 5⟩]
      = [[⟨['a'], 0, 0, 5, 5⟩, ⟨['b'], 10, 3/2, 15, 5⟩], [⟨['c'], 20, 3, 25, 5⟩]] := by
    norm_num [groupWordsIntoLinesAnchor, linesAnchorGo, mathAbs, LINE_Y_TOLERANCE]
  refine ⟨h1, ?_, ?_⟩
  · intro hall
    have := hall _ (by rw [h1]; exact List.mem_singleton.mpr rfl)
      ⟨['c'], 20, 3, 25, 5⟩ (by simp)
    rw [h1] at hall
    norm_num [mathAbs, LINE_Y_TOLERANCE] at this
  · rw [h1, h2]
    simp

/-- Helper for C8: full characterization of the line-grouping loop.  The
invariant is that `cur` is the non-empty current line, internally chained
by the last-word tolerance rule, and `lastWord` is its last element. -/
theorem linesGo_spec :
    ∀ (rest cur : List Word) (lastWord : Word),
      cur ≠ [] → cur.getLast? = some lastWord →
      List.Chain' (fun p c => mathAbs (c.yMin - p.yMin) ≤ LINE_Y_TOLERANCE) cur →
      (linesGo cur lastWord rest).flatten = cur ++ rest
      ∧ (∀ l ∈ linesGo cur lastWord rest,
          l ≠ [] ∧ List.Chain' (fun p c => mathAbs (c.yMin - p.yMin) ≤ LINE_Y_TOLERANCE) l)
      ∧ List.Chain' (fun l1 l2 => ∀ a ∈ l1.getLast?, ∀ b ∈ l2.head?,
          mathAbs (b.yMin - a.yMin) > LINE_Y_TOLERANCE) (linesGo cur lastWord rest)
      ∧ (∃ t, (linesGo cur lastWord rest).head? = some (cur ++ t)) := by
  intro rest
  induction rest with
  | nil =>
      intro cur lastWord hne hlast hchain
      refine ⟨by simp [linesGo], ?_, by simp [linesGo], ?_⟩
      · intro l hl
        simp only [linesGo, List.mem_singleton] at hl
        subst hl
        exact ⟨hne, hchain⟩
      · exact ⟨[], by simp [linesGo]⟩
  | cons w rest ih =>
      intro cur lastWord hne hlast hchain
      by_cases hjoin : mathAbs (w.yMin - lastWord.yMin) ≤ LINE_Y_TOLERANCE
      · have hne2 : cur ++ [w] ≠ [] := by simp
        have hlast2 : (cur ++ [w]).getLast? = some w := by
          simp [List.getLast?_concat]
        have hchain2 : List.Chain'
            (fun p c => mathAbs (c.yMin - p.yMin) ≤ LINE_Y_TOLERANCE) (cur ++ [w]) := by
          rw [List.chain'_append]
          refine ⟨hchain, List.chain'_singleton w, ?_⟩
          intro x hx y hy
          rw [hlast] at hx
          simp only [Option.mem_def, Option.some_inj] at hx
          simp only [List.head?_cons, Option.mem_def, Option.some_inj] at hy
          subst hx
          subst hy
          exact hjoin
        obtain ⟨h1, h2, h3, t, h4⟩ := ih (cur ++ [w]) w hne2 hlast2 hchain2
        have hstep : linesGo cur lastWord (w :: rest) = linesGo (cur ++ [w]) w rest := by
          simp [linesGo, hjoin]
        rw [hstep]
        refine ⟨by rw [h1]; simp, h2, h3, ⟨[w] ++ t, by rw [h4]; simp⟩⟩
      · have hne2 : [w] ≠ ([] : List Word) := by simp
        obtain ⟨h1, h2, h3, t, h4⟩ :=
          ih [w] w hne2 (by simp) (List.chain'_singleton w)
        have hstep : linesGo cur lastWord (w :: rest) = cur :: linesGo [w] w rest := by
          simp [linesGo, hjoin]
        rw [hstep]
        refine ⟨by rw [List.flatten_cons, h1]; simp, ?_, ?_, ⟨[], by simp⟩⟩
        · intro l hl
          rcases List.mem_cons.mp hl with hl | hl
          · subst hl
            exact ⟨hne, hchain⟩
          · exact h2 l hl
        · rw [List.chain'_cons']
          refine ⟨?_, h3⟩
          intro l2 hl2
          rw [h4] at hl2
          simp only [Option.mem_def, Option.some_inj] at hl2
          subst hl2
          intro a ha b hb
          rw [hlast] at ha
          simp only [Option.mem_def, Option.some_inj] at ha
          simp only [List.cons_append, List.head?_cons, Option.mem_def, Option.some_inj] at hb
          subst ha
          subst hb
          exact lt_of_not_le hjoin

/-- C8 (amended): after sorting, a word joins the current line iff its Y is
within the 2-unit tolerance of the Y of the LAST word already in the line
(the comparison point drifts word by word), not of the anchor word that
started the line.  Consequently the produced lines partition the word
sequence, consecutive words inside a line are within tolerance of each
other, and the first word of each new line is beyond tolerance of the last
word of the previous line. -/
theorem groupWordsIntoLines_spec (words : List Word) :
    (groupWordsIntoLines words).flatten = words
    ∧ (∀ l ∈ groupWordsIntoLines words,
        l ≠ [] ∧ List.Chain' (fun p c => mathAbs (c.yMin - p.yMin) ≤ LINE_Y_TOLERANCE) l)
    ∧ List.Chain' (fun l1 l2 => ∀ a ∈ l1.getLast?, ∀ b ∈ l2.head?,
        mathAbs (b.yMin - a.yMin) > LINE_Y_TOLERANCE) (groupWordsIntoLines words) := by
  cases words with
  | nil => simp [groupWordsIntoLines]
  | cons w rest =>
      obtain ⟨h1, h2, h3, _⟩ :=
        linesGo_spec rest [w] w (by simp) (by simp) (List.chain'_singleton w)
      exact ⟨by simpa using h1, h2, h3⟩

/-- Witness for `groupWordsIntoLines_spec` at a one-word input. -/
theorem groupWordsIntoLines_spec_witness :
    (groupWordsIntoLines [⟨['a'], 0, 0, 5, 5⟩]).flatten = [⟨['a'], 0, 0, 5, 5⟩]
    ∧ ([(⟨['a'], 0, 0, 5, 5⟩ : Word)] ≠ []
        ∧ List.Chain' (fun p c => mathAbs (c.yMin - p.yMin) ≤ LINE_Y_TOLERANCE)
            [(⟨['a'], 0, 0, 5, 5⟩ : Word)])
    ∧ List.Chain' (fun l1 l2 => ∀ a ∈ l1.getLast?, ∀ b ∈ l2.head?,
        mathAbs (b.yMin - a.yMin) > LINE_Y_TOLERANCE)
        (groupWordsIntoLines [⟨['a'], 0, 0, 5, 5⟩]) :=
  ⟨(groupWordsIntoLines_spec [⟨['a'], 0, 0, 5, 5⟩]).1,
   (groupWordsIntoLines_spec [⟨['a'], 0, 0, 5, 5⟩]).2.1 [⟨['a'], 0, 0, 5, 5⟩]
     (by simp [groupWordsIntoLines, linesGo]),
   (groupWordsIntoLines_spec [⟨['a'], 0, 0, 5, 5⟩]).2.2⟩

/-! ### Row clustering invariants (shared by the grouping claims) -/

instance : IsTotal SvgBox (fun a b => a.y ≤ b.y) := ⟨fun a b => le_total a.y b.y⟩

instance : IsTrans SvgBox (fun a b => a.y ≤ b.y) := ⟨fun _ _ _ h1 h2 => le_trans h1 h2⟩

instance : IsTotal SvgBox (fun a b => a.x ≤ b.x) := ⟨fun a b => le_total a.x b.x⟩

instance : IsTrans SvgBox (fun a b => a.x ≤ b.x) := ⟨fun _ _ _ h1 h2 => le_trans h1 h2⟩

/-- Invariant maintained for every row built by `groupByY`: the boxes all
carry the row kind, the row is non-empty, consecutive boxes (in insertion
order) are ascending in Y with gaps of at most the tolerance, and the row Y
is the exact mean of the member Y values. -/
def RowInv (r : BoxRow) : Prop :=
  (∀ b ∈ r.boxes, b.type = r.type)
  ∧ r.boxes ≠ []
  ∧ List.Chain' (fun p c => p.y ≤ c.y ∧ c.y - p.y ≤ Y_TOLERANCE) r.boxes
  ∧ r.y = ((r.boxes.map SvgBox.y).sum) / (r.boxes.length : ℚ)

/-- In an ascending chain every member is bounded by the last element. -/
theorem mem_le_getLast :
    ∀ (l : List SvgBox),
      List.Chain' (fun p c => p.y ≤ c.y ∧ c.y - p.y ≤ Y_TOLERANCE) l →
      ∀ x, l.getLast? = some x → ∀ b ∈ l, b.y ≤ x.y := by
  intro l
  induction l with
  | nil => intro _ x hx; simp at hx
  | cons a t ih =>
      intro hc x hx b hb
      cases t with
      | nil =>
          simp only [List.getLast?_singleton, Option.some_inj] at hx
          simp only [List.mem_singleton] at hb
          subst hx
          subst hb
          exact le_refl _
      | cons c t2 =>
          rw [List.getLast?_cons_cons] at hx
          have hct := (List.chain'_cons.mp hc)
          rcases List.mem_cons.mp hb with hb | hb
          · subst hb
            calc b.y ≤ c.y := hct.1.1
              _ ≤ x.y := ih hct.2 x hx c (List.mem_cons_self _ _)
          · exact ih hct.2 x hx b hb

/-- The mean of a non-empty list of Y values is bounded by any upper bound
of the members. -/
theorem sum_div_le (l : List SvgBox) (M : ℚ) (hne : l ≠ [])
    (hb : ∀ b ∈ l, b.y ≤ M) :
    ((l.map SvgBox.y).sum) / (l.length : ℚ) ≤ M := by
  have hlen : 0 < (l.length : ℚ) := by
    have := List.length_pos.mpr hne
    exact_mod_cast this
  rw [div_le_iff hlen]
  have hsum : (l.map SvgBox.y).sum ≤ (l.map SvgBox.y).length • M := by
    apply List.sum_le_card_nsmul
    intro x hx
    rcases List.mem_map.mp hx with ⟨b, hbl, rfl⟩
    exact hb b hbl
  rw [List.length_map, nsmul_eq_mul] at hsum
  linarith

/-- `addToRows` preserves the row invariant when the incoming box is an
upper Y bound of all existing members. -/
theorem addToRows_inv (page : ℕ) (box : SvgBox) :
    ∀ (rows : List BoxRow), (∀ r ∈ rows, RowInv r) →
      (∀ r ∈ rows, ∀ m ∈ r.boxes, m.y ≤ box.y) →
      ∀ r2 ∈ addToRows page rows box, RowInv r2 := by
  intro rows
  induction rows with
  | nil =>
      intro _ _ r2 hr2
      simp only [addToRows, List.mem_singleton] at hr2
      subst hr2
      refine ⟨by simp, by simp, by simp, by simp⟩
  | cons r rest ih =>
      intro hinv hub r2 hr2
      by_cases hmatch : mathAbs (r.y - box.y) ≤ Y_TOLERANCE ∧ r.type = box.type
      · rw [addToRows, if_pos hmatch] at hr2
        rcases List.mem_cons.mp hr2 with hr2 | hr2
        · subst hr2
          obtain ⟨hty, hne, hchain, havg⟩ := hinv r (List.mem_cons_self _ _)
          have hubr := hub r (List.mem_cons_self _ _)
          refine ⟨?_, by simp, ?_, by simp⟩
          · intro b hb
            rcases List.mem_append.mp hb with hb | hb
            · exact hty b hb
            · simp only [List.mem_singleton] at hb
              subst hb
              exact hmatch.2.symm
          · rw [List.chain'_append]
            refine ⟨hchain, List.chain'_singleton box, ?_⟩
            intro x hx y hy
            simp only [List.head?_cons, Option.mem_def, Option.some_inj] at hy
            subst hy
            simp only [Option.mem_def] at hx
            have hxle : box.y - r.y ≤ Y_TOLERANCE := by
              rw [mathAbs_eq_abs] at hmatch
              have := abs_le.mp hmatch.1
              linarith [this.1]
            have hry : r.y ≤ x.y := by
              rw [havg]
              exact sum_div_le r.boxes x.y hne (mem_le_getLast r.boxes hchain x hx)
            exact ⟨hub r (List.mem_cons_self _ _) x (List.mem_of_mem_getLast? hx), by linarith⟩
        · exact hinv r2 (List.mem_cons_of_mem _ hr2)
      · rw [addToRows, if_neg hmatch] at hr2
        rcases List.mem_cons.mp hr2 with hr2 | hr2
        · subst hr2
          exact hinv r2 (List.mem_cons_self _ _)
        · exact ih (fun r3 h3 => hinv r3 (List.mem_cons_of_mem _ h3))
            (fun r3 h3 => hub r3 (List.mem_cons_of_mem _ h3)) r2 hr2

/-- Members of the rows after `addToRows` are either old members or the new
box. -/
theorem addToRows_mem (page : ℕ) (box : SvgBox) :
    ∀ (rows : List BoxRow), ∀ r2 ∈ addToRows page rows box, ∀ m ∈ r2.boxes,
      (∃ r ∈ rows, m ∈ r.boxes) ∨ m = box := by
  intro rows
  induction rows with
  | nil =>
      intro r2 hr2 m hm
      simp only [addToRows, List.mem_singleton] at hr2
      subst hr2
      simp only [List.mem_singleton] at hm
      exact Or.inr hm
  | cons r rest ih =>
      intro r2 hr2 m hm
      by_cases hmatch : mathAbs (r.y - box.y) ≤ Y_TOLERANCE ∧ r.type = box.type
      · rw [addToRows, if_pos hmatch] at hr2
        rcases List.mem_cons.mp hr2 with hr2 | hr2
        · subst hr2
          simp only at hm
          rcases List.mem_append.mp hm with hm | hm
          · exact Or.inl ⟨r, List.mem_cons_self _ _, hm⟩
          · simp only [List.mem_singleton] at hm
            exact Or.inr hm
        · exact Or.inl ⟨r2, List.mem_cons_of_mem _ hr2, hm⟩
      · rw [addToRows, if_neg hmatch] at hr2
        rcases List.mem_cons.mp hr2 with hr2 | hr2
        · subst hr2
          exact Or.inl ⟨r2, List.mem_cons_self _ _, hm⟩
        · rcases ih r2 hr2 m hm with ⟨r3, h3, hm3⟩ | hbox
          · exact Or.inl ⟨r3, List.mem_cons_of_mem _ h3, hm3⟩
          · exact Or.inr hbox

/-- The multiset of boxes across all rows gains exactly the new box. -/
theorem addToRows_flatten_perm (page : ℕ) (box : SvgBox) :
    ∀ (rows : List BoxRow),
      ((addToRows page rows box).map BoxRow.boxes).flatten.Perm
        (((rows.map BoxRow.boxes).flatten) ++ [box]) := by
  intro rows
  induction rows with
  | nil => simp [addToRows]
  | cons r rest ih =>
      by_cases hmatch : mathAbs (r.y - box.y) ≤ Y_TOLERANCE ∧ r.type = box.type
      · rw [addToRows, if_pos hmatch]
        simp only [List.map_cons, List.flatten_cons, List.append_assoc]
        exact (List.Perm.append_left r.boxes (List.perm_append_comm)).trans
          (List.Perm.append_left r.boxes (List.Perm.refl _))
      · rw [addToRows, if_neg hmatch]
        simp only [List.map_cons, List.flatten_cons, List.append_assoc]
        exact List.Perm.append_left r.boxes ih

/-- The fold of the clustering loop keeps every row invariant, provided the
input is processed in ascending Y order. -/
theorem foldl_addToRows_inv (page : ℕ) :
    ∀ (l : List SvgBox) (rows : List BoxRow),
      List.Pairwise (fun a b => a.y ≤ b.y) l →
      (∀ r ∈ rows, RowInv r) →
      (∀ r ∈ rows, ∀ m ∈ r.boxes, ∀ x ∈ l, m.y ≤ x.y) →
      ∀ r ∈ l.foldl (addToRows page) rows, RowInv r := by
  intro l
  induction l with
  | nil => intro rows _ hinv _ r hr; exact hinv r hr
  | cons b l ih =>
      intro rows hpair hinv hub r hr
      rw [List.foldl_cons] at hr
      have hpair2 := List.pairwise_cons.mp hpair
      refine ih (addToRows page rows b) hpair2.2 ?_ ?_ r hr
      · exact addToRows_inv page b rows hinv
          (fun r3 h3 m hm => hub r3 h3 m hm b (List.mem_cons_self _ _))
      · intro r3 h3 m hm x hx
        rcases addToRows_mem page b rows r3 h3 m hm with ⟨r4, h4, hm4⟩ | hmb
        · exact hub r4 h4 m hm4 x (List.mem_cons_of_mem _ hx)
        · subst hmb
          exact hpair2.1 x hx

/-- Every row produced by `groupByY` satisfies the row invariant. -/
theorem groupByY_inv (boxes : List SvgBox) (page : ℕ) :
    ∀ r ∈ groupByY boxes page, RowInv r := by
  intro r hr
  refine foldl_addToRows_inv page _ [] ?_ (by simp) (by simp) r hr
  exact List.sorted_insertionSort (fun a b => a.y ≤ b.y) boxes

/-- The boxes of the rows of `groupByY` are a permutation of the input. -/
theorem groupByY_flatten_perm (boxes : List SvgBox) (page : ℕ) :
    (((groupByY boxes page).map BoxRow.boxes).flatten).Perm boxes := by
  have hfold : ∀ (l : List SvgBox) (rows : List BoxRow),
      ((l.foldl (addToRows page) rows).map BoxRow.boxes).flatten.Perm
        (((rows.map BoxRow.boxes).flatten) ++ l) := by
    intro l
    induction l with
    | nil => intro rows; simp
    | cons b l ih =>
        intro rows
        rw [List.foldl_cons]
        refine (ih (addToRows page rows b)).trans ?_
        refine (List.Perm.append_right l (addToRows_flatten_perm page b rows)).trans ?_
        simp [List.append_assoc]

  refine ((hfold _ []).trans ?_)
  simpa using List.perm_insertionSort (fun a b => a.y ≤ b.y) boxes

/-- The groups produced by `splitGo` concatenate back to the input run. -/
theorem splitGo_flatten :
    ∀ (rest : List SvgBox) (prev : SvgBox) (cur : List SvgBox),
      (splitGo prev cur rest).flatten = cur ++ rest := by
  intro rest
  induction rest with
  | nil => intro prev cur; simp [splitGo]
  | cons c rest ih =>
      intro prev cur
      by_cases hgap : c.x - (prev.x + prev.width) > FIELD_GAP_THRESHOLD
      · rw [splitGo, if_pos hgap]
        simp [ih]
      · rw [splitGo, if_neg hgap]
        rw [ih]
        simp

/-- Each group emitted by `splitGo` is non-empty and has no internal gap
beyond the threshold. -/
theorem splitGo_groups :
    ∀ (rest : List SvgBox) (cur : List SvgBox) (prev : SvgBox),
      cur ≠ [] → cur.getLast? = some prev →
      List.Chain' (fun p c => c.x - (p.x + p.width) ≤ FIELD_GAP_THRESHOLD) cur →
      ∀ g ∈ splitGo prev cur rest,
        g ≠ [] ∧ List.Chain' (fun p c => c.x - (p.x + p.width) ≤ FIELD_GAP_THRESHOLD) g := by
  intro rest
  induction rest with
  | nil =>
      intro cur prev hne _ hchain g hg
      simp only [splitGo, List.mem_singleton] at hg
      subst hg
      exact ⟨hne, hchain⟩
  | cons c rest ih =>
      intro cur prev hne hlast hchain g hg
      by_cases hgap : c.x - (prev.x + prev.width) > FIELD_GAP_THRESHOLD
      · rw [splitGo, if_pos hgap] at hg
        rcases List.mem_cons.mp hg with hg | hg
        · subst hg
          exact ⟨hne, hchain⟩
        · exact ih [c] c (by simp) (by simp) (List.chain'_singleton c) g hg
      · rw [splitGo, if_neg hgap] at hg
        refine ih (cur ++ [c]) c (by simp) (by simp [List.getLast?_concat]) ?_ g hg
        rw [List.chain'_append]
        refine ⟨hchain, List.chain'_singleton c, ?_⟩
        intro x hx y hy
        simp only [List.head?_cons, Option.mem_def, Option.some_inj] at hy
        subst hy
        rw [hlast] at hx
        simp only [Option.mem_def, Option.some_inj] at hx
        subst hx
        exact le_of_not_lt hgap

/-- Properties of the field groups of one row. -/
theorem splitByXGap_props (sorted : List SvgBox) (row : BoxRow) :
    ∀ fg ∈ splitByXGap sorted row,
      fg.boxes ≠ []
      ∧ List.Chain' (fun p c => c.x - (p.x + p.width) ≤ FIELD_GAP_THRESHOLD) fg.boxes
      ∧ fg.boxCount = fg.boxes.length
      ∧ fg.row.type = row.type
      ∧ ∀ b ∈ fg.boxes, b ∈ sorted := by
  intro fg hfg
  cases sorted with
  | nil => simp [splitByXGap] at hfg
  | cons b0 rest =>
      rw [splitByXGap] at hfg
      rcases List.mem_map.mp hfg with ⟨g, hg, rfl⟩
      obtain ⟨hne, hchain⟩ :=
        splitGo_groups rest [b0] b0 (by simp) (by simp) (List.chain'_singleton b0) g hg
      refine ⟨hne, hchain, rfl, rfl, ?_⟩
      intro b hb
      have : b ∈ (splitGo b0 [b0] rest).flatten := List.mem_flatten.mpr ⟨g, hg, hb⟩
      rw [splitGo_flatten rest b0 [b0]] at this
      simpa using this

/-- The groups of one row concatenate back to the sorted row. -/
theorem splitByXGap_flatten (sorted : List SvgBox) (row : BoxRow) :
    ((splitByXGap sorted row).map FieldGroup.boxes).flatten = sorted := by
  cases sorted with
  | nil => simp [splitByXGap]
  | cons b0 rest =>
      rw [splitByXGap]
      rw [List.map_map]
      have : (FieldGroup.boxes ∘ fun boxes =>
          (⟨boxes, ⟨boxes, row.y, row.type, row.page⟩, boxes.length⟩ : FieldGroup)) = id := by
        funext boxes
        rfl
      rw [this, List.map_id]
      exact splitGo_flatten rest b0 [b0]

instance : Inhabited BoxRow := ⟨⟨[], 0, BoxType.cell, 0⟩⟩

instance : Inhabited FieldGroup := ⟨⟨[], default, 0⟩⟩

/-- Every group of `groupBoxesIntoFields` comes from splitting one row. -/
theorem mem_groupBoxesIntoFields {boxes : List SvgBox} {page : ℕ} {g : FieldGroup} :
    g ∈ groupBoxesIntoFields boxes page →
      ∃ row ∈ groupByY boxes page,
        g ∈ splitByXGap (row.boxes.insertionSort fun a b => a.x ≤ b.x) row := by
  intro hg
  simp only [groupBoxesIntoFields] at hg
  rw [List.mem_insertionSort] at hg
  rcases List.mem_flatten.mp hg with ⟨l, hl, hgl⟩
  rcases List.mem_map.mp hl with ⟨row, hrow, rfl⟩
  exact ⟨row, hrow, hgl⟩

/-! ### C10: the grouping partitions the input -/

/-- C10: the field groups partition the input boxes — their concatenated
box lists are a permutation of the input (no box dropped or duplicated),
every group is non-empty, and `boxCount` is the size of the group. -/
theorem groupBoxesIntoFields_partition (boxes : List SvgBox) (page : ℕ) :
    (((groupBoxesIntoFields boxes page).map FieldGroup.boxes).flatten).Perm boxes
    ∧ ∀ g ∈ groupBoxesIntoFields boxes page,
        g.boxes ≠ [] ∧ g.boxCount = g.boxes.length := by
  constructor
  · have hsortperm : (groupBoxesIntoFields boxes page).Perm
        ((groupByY boxes page).map fun row =>
          splitByXGap (row.boxes.insertionSort fun a b => a.x ≤ b.x) row).flatten := by
      simp only [groupBoxesIntoFields]
      exact List.perm_insertionSort _ _
    have h1 := (hsortperm.map FieldGroup.boxes).flatten
    have h2 : ∀ (rows : List BoxRow),
        (((rows.map fun row =>
            splitByXGap (row.boxes.insertionSort fun a b => a.x ≤ b.x) row).flatten.map
              FieldGroup.boxes).flatten).Perm ((rows.map BoxRow.boxes).flatten) := by
      intro rows
      induction rows with
      | nil => simp
      | cons r rows ih =>
          simp only [List.map_cons, List.flatten_cons, List.map_append, List.flatten_append]
          refine List.Perm.append ?_ ih
          rw [splitByXGap_flatten]
          exact List.perm_insertionSort _ _
    exact (h1.trans (h2 _)).trans (groupByY_flatten_perm boxes page)
  · intro g hg
    rcases mem_groupBoxesIntoFields hg with ⟨row, hrow, hgrow⟩
    obtain ⟨hne, _, hcount, _, _⟩ := splitByXGap_props _ row g hgrow
    exact ⟨hne, hcount⟩

/-- Witness for `groupBoxesIntoFields_partition` at a one-box input. -/
theorem groupBoxesIntoFields_partition_witness :
    (((groupBoxesIntoFields [⟨0, 0, 8, 8, BoxType.cell⟩] 1).map FieldGroup.boxes).flatten).Perm
        [⟨0, 0, 8, 8, BoxType.cell⟩]
    ∧ ((groupBoxesIntoFields [⟨0, 0, 8, 8, BoxType.cell⟩] 1).headI.boxes ≠ []
        ∧ (groupBoxesIntoFields [⟨0, 0, 8, 8, BoxType.cell⟩] 1).headI.boxCount
            = (groupBoxesIntoFields [⟨0, 0, 8, 8, BoxType.cell⟩] 1).headI.boxes.length) := by
  have hev : groupBoxesIntoFields [⟨0, 0, 8, 8, BoxType.cell⟩] 1
      = [⟨[⟨0, 0, 8, 8, BoxType.cell⟩],
          ⟨[⟨0, 0, 8, 8, BoxType.cell⟩], 0, BoxType.cell, 1⟩, 1⟩] := by
    norm_num [groupBoxesIntoFields, groupByY, addToRows, splitByXGap, splitGo, fieldLe,
      mathAbs, Y_TOLERANCE, FIELD_GAP_THRESHOLD, List.insertionSort, List.orderedInsert]
  have hmem : (groupBoxesIntoFields [⟨0, 0, 8, 8, BoxType.cell⟩] 1).headI
      ∈ groupBoxesIntoFields [⟨0, 0, 8, 8, BoxType.cell⟩] 1 := by
    rw [hev]
    exact List.mem_singleton.mpr rfl
  exact ⟨(groupBoxesIntoFields_partition [⟨0, 0, 8, 8, BoxType.cell⟩] 1).1,
    (groupBoxesIntoFields_partition [⟨0, 0, 8, 8, BoxType.cell⟩] 1).2 _ hmem⟩

/-! ### C6: field group invariants -/

/-- In a tolerance chain, every member lies between the head Y and the head
Y plus the tolerance times (length - 1). -/
theorem chain_y_bound :
    ∀ (l : List SvgBox),
      List.Chain' (fun p c => p.y ≤ c.y ∧ c.y - p.y ≤ Y_TOLERANCE) l →
      ∀ b ∈ l, l.headI.y ≤ b.y
        ∧ b.y ≤ l.headI.y + Y_TOLERANCE * ((l.length : ℚ) - 1) := by
  intro l
  induction l with
  | nil => intro _ b hb; simp at hb
  | cons a t ih =>
      intro hc b hb
      rcases List.mem_cons.mp hb with rfl | hb
      · have hnn : (0 : ℚ) ≤ Y_TOLERANCE * (((b :: t).length : ℚ) - 1) := by
          apply mul_nonneg (by norm_num [Y_TOLERANCE])
          have : (0 : ℚ) ≤ (t.length : ℚ) := Nat.cast_nonneg _
          push_cast [List.length_cons]
          linarith
        exact ⟨le_refl _, by simp only [List.headI]; linarith⟩
      · cases t with
        | nil => simp at hb
        | cons c t2 =>
            have hct := List.chain'_cons.mp hc
            have hbc := ih hct.2 b hb
            simp only [List.headI] at hbc ⊢
            have h1 : a.y ≤ c.y := hct.1.1
            have h2 : c.y - a.y ≤ Y_TOLERANCE := hct.1.2
            have hlen : ((a :: c :: t2).length : ℚ) = ((c :: t2).length : ℚ) + 1 := by
              push_cast [List.length_cons]
              ring
            refine ⟨by linarith [hbc.1], ?_⟩
            rw [hlen]
            simp only [Y_TOLERANCE] at h2 hbc ⊢
            linarith [hbc.2]

/-- Any two members of a tolerance chain differ in Y by at most the
tolerance times (length - 1). -/
theorem chain_y_spread (l : List SvgBox)
    (hc : List.Chain' (fun p c => p.y ≤ c.y ∧ c.y - p.y ≤ Y_TOLERANCE) l) :
    ∀ b1 ∈ l, ∀ b2 ∈ l, |b1.y - b2.y| ≤ Y_TOLERANCE * ((l.length : ℚ) - 1) := by
  intro b1 hb1 b2 hb2
  have h1 := chain_y_bound l hc b1 hb1
  have h2 := chain_y_bound l hc b2 hb2
  rw [abs_sub_le_iff]
  constructor <;> linarith [h1.1, h1.2, h2.1, h2.2]

/-- The length of a member list is bounded by the length of the flattened
list of lists. -/
theorem length_le_flatten_length {α : Type} :
    ∀ (L : List (List α)) (l : List α), l ∈ L → l.length ≤ L.flatten.length := by
  intro L
  induction L with
  | nil => intro l hl; simp at hl
  | cons h t ih =>
      intro l hl
      rcases List.mem_cons.mp hl with hl | hl
      · subst hl
        simp only [List.flatten_cons, List.length_append]
        omega
      · have := ih l hl
        simp only [List.flatten_cons, List.length_append]
        omega

/-- C6 (amended): every field group is kind-homogeneous (a) and has no
internal X gap beyond the threshold (b); but the 2-unit bound of (c) holds
only between a joining box and the running average at join time, so the
provable pairwise bound within a group is the tolerance times (number of
input boxes - 1), not the tolerance itself — the running average lets the Y
values drift. -/
theorem groupBoxesIntoFields_group_props (boxes : List SvgBox) (page : ℕ) :
    ∀ g ∈ groupBoxesIntoFields boxes page,
      (∀ b ∈ g.boxes, b.type = g.row.type)
      ∧ List.Chain' (fun p c => c.x - (p.x + p.width) ≤ FIELD_GAP_THRESHOLD) g.boxes
      ∧ ∀ b1 ∈ g.boxes, ∀ b2 ∈ g.boxes,
          |b1.y - b2.y| ≤ Y_TOLERANCE * ((boxes.length : ℚ) - 1) := by
  intro g hg
  rcases mem_groupBoxesIntoFields hg with ⟨row, hrow, hgrow⟩
  obtain ⟨hne, hchain, hcount, hrowty, hsub⟩ := splitByXGap_props _ row g hgrow
  obtain ⟨hty, hrne, hrchain, _⟩ := groupByY_inv boxes page row hrow
  have hsubrow : ∀ b ∈ g.boxes, b ∈ row.boxes := by
    intro b hb
    have := hsub b hb
    rwa [List.mem_insertionSort] at this
  refine ⟨?_, hchain, ?_⟩
  · intro b hb
    rw [hrowty]
    exact hty b (hsubrow b hb)
  · intro b1 hb1 b2 hb2
    have hspread := chain_y_spread row.boxes hrchain b1 (hsubrow b1 hb1) b2 (hsubrow b2 hb2)
    have hlen : row.boxes.length ≤ boxes.length := by
      have hmem : row.boxes ∈ (groupByY boxes page).map BoxRow.boxes :=
        List.mem_map_of_mem _ hrow
      have h1 := length_le_flatten_length _ _ hmem
      have h2 := (groupByY_flatten_perm boxes page).length_eq
      omega
    refine hspread.trans ?_
    have hcast : (row.boxes.length : ℚ) ≤ (boxes.length : ℚ) := by exact_mod_cast hlen
    apply mul_le_mul_of_nonneg_left _ (by norm_num [Y_TOLERANCE])
    linarith

/-- Witness for `groupBoxesIntoFields_group_props` at a one-box input. -/
theorem groupBoxesIntoFields_group_props_witness :
    (∀ b ∈ (groupBoxesIntoFields [⟨0, 0, 8, 8, BoxType.cell⟩] 1).headI.boxes,
        b.type = (groupBoxesIntoFields [⟨0, 0, 8, 8, BoxType.cell⟩] 1).headI.row.type)
    ∧ List.Chain' (fun p c => c.x - (p.x + p.width) ≤ FIELD_GAP_THRESHOLD)
        (groupBoxesIntoFields [⟨0, 0, 8, 8, BoxType.cell⟩] 1).headI.boxes
    ∧ ∀ b1 ∈ (groupBoxesIntoFields [⟨0, 0, 8, 8, BoxType.cell⟩] 1).headI.boxes,
        ∀ b2 ∈ (groupBoxesIntoFields [⟨0, 0, 8, 8, BoxType.cell⟩] 1).headI.boxes,
          |b1.y - b2.y| ≤ Y_TOLERANCE * (([(⟨0, 0, 8, 8, BoxType.cell⟩ : SvgBox)].length : ℚ) - 1) := by
  have hev : groupBoxesIntoFields [⟨0, 0, 8, 8, BoxType.cell⟩] 1
      = [⟨[⟨0, 0, 8, 8, BoxType.cell⟩],
          ⟨[⟨0, 0, 8, 8, BoxType.cell⟩], 0, BoxType.cell, 1⟩, 1⟩] := by
    norm_num [groupBoxesIntoFields, groupByY, addToRows, splitByXGap, splitGo, fieldLe,
      mathAbs, Y_TOLERANCE, FIELD_GAP_THRESHOLD, List.insertionSort, List.orderedInsert]
  have hmem : (groupBoxesIntoFields [⟨0, 0, 8, 8, BoxType.cell⟩] 1).headI
      ∈ groupBoxesIntoFields [⟨0, 0, 8, 8, BoxType.cell⟩] 1 := by
    rw [hev]
    exact List.mem_singleton.mpr rfl
  exact groupBoxesIntoFields_group_props [⟨0, 0, 8, 8, BoxType.cell⟩] 1 _ hmem

/-- C6 counterexample (to part (c) as claimed): the running-average rule
lets boxes at Y 0, 2 and 3 cluster into one row (2 joins the average 0,
then 3 joins the average 1), and with small X gaps they form one field
group containing members whose Y values differ by 3, beyond the 2-unit
tolerance. -/
theorem groupBoxesIntoFields_pairwise_y_claim_false :
    ¬ (∀ g ∈ groupBoxesIntoFields
        [⟨0, 0, 8, 8, BoxType.cell⟩, ⟨10, 2, 8, 8, BoxType.cell⟩, ⟨20, 3, 8, 8, BoxType.cell⟩] 1,
        ∀ b1 ∈ g.boxes, ∀ b2 ∈ g.boxes, |b1.y - b2.y| ≤ Y_TOLERANCE) := by
  have hev : groupBoxesIntoFields
      [⟨0, 0, 8, 8, BoxType.cell⟩, ⟨10, 2, 8, 8, BoxType.cell⟩, ⟨20, 3, 8, 8, BoxType.cell⟩] 1
      = [⟨[⟨0, 0, 8, 8, BoxType.cell⟩, ⟨10, 2, 8, 8, BoxType.cell⟩, ⟨20, 3, 8, 8, BoxType.cell⟩],
          ⟨[⟨0, 0, 8, 8, BoxType.cell⟩, ⟨10, 2, 8, 8, BoxType.cell⟩,
            ⟨20, 3, 8, 8, BoxType.cell⟩], 5/3, BoxType.cell, 1⟩, 3⟩] := by
    norm_num [groupBoxesIntoFields, groupByY, addToRows, splitByXGap, splitGo, fieldLe,
      mathAbs, Y_TOLERANCE, FIELD_GAP_THRESHOLD, List.insertionSort, List.orderedInsert]
  rw [hev]
  intro hall
  have h := hall _ (List.mem_singleton.mpr rfl)
    ⟨0, 0, 8, 8, BoxType.cell⟩ (by simp) ⟨20, 3, 8, 8, BoxType.cell⟩ (by simp)
  norm_num [Y_TOLERANCE] at h

/-! ### C7: output order of the field groups -/

/-- Inserting into a chain of a total relation preserves the chain,
even without transitivity. -/
theorem chain'_orderedInsert {α : Type} (r : α → α → Prop) [DecidableRel r]
    (htot : ∀ a b, r a b ∨ r b a) (a : α) :
    ∀ l, List.Chain' r l → List.Chain' r (List.orderedInsert r a l) := by
  intro l
  induction l with
  | nil => intro _; simp
  | cons b l ih =>
      intro hc
      rw [List.orderedInsert]
      by_cases hab : r a b
      · rw [if_pos hab]
        exact List.chain'_cons.mpr ⟨hab, hc⟩
      · rw [if_neg hab]
        have hba : r b a := (htot a b).resolve_left hab
        rw [List.chain'_cons']
        refine ⟨?_, ih hc.tail⟩
        intro y hy
        cases l with
        | nil =>
            simp only [List.orderedInsert, List.head?_cons, Option.mem_def,
              Option.some_inj] at hy
            subst hy
            exact hba
        | cons c l2 =>
            rw [List.orderedInsert] at hy
            by_cases hac : r a c
            · rw [if_pos hac] at hy
              simp only [List.head?_cons, Option.mem_def, Option.some_inj] at hy
              subst hy
              exact hba
            · rw [if_neg hac] at hy
              simp only [List.head?_cons, Option.mem_def, Option.some_inj] at hy
              subst hy
              exact (List.chain'_cons.mp hc).1

/-- Insertion sort of a total relation produces a chain of that relation —
adjacent elements of the output are always related, even when the relation
is not transitive. -/
theorem chain'_insertionSort {α : Type} (r : α → α → Prop) [DecidableRel r]
    (htot : ∀ a b, r a b ∨ r b a) :
    ∀ l : List α, List.Chain' r (l.insertionSort r) := by
  intro l
  induction l with
  | nil => simp
  | cons a l ih =>
      rw [List.insertionSort]
      exact chain'_orderedInsert r htot a _ ih

/-- The comparator of the final sort is total. -/
theorem fieldLe_total : ∀ a b : FieldGroup, fieldLe a b ∨ fieldLe b a := by
  intro a b
  unfold fieldLe
  rw [mathAbs_eq_abs, mathAbs_eq_abs,
    abs_sub_comm b.boxes.headI.y a.boxes.headI.y]
  by_cases h : |a.boxes.headI.y - b.boxes.headI.y| > Y_TOLERANCE
  · rw [if_pos h, if_pos h]
    exact le_total _ _
  · rw [if_neg h, if_neg h]
    exact le_total _ _

/-- The ordering relation of the C7 claim between two field groups, read on
their first boxes: the earlier group is lower by more than the tolerance,
or the two are within the tolerance band and the earlier has the smaller
(or equal) X. -/
def specFieldOrder (a b : FieldGroup) : Prop :=
  b.boxes.headI.y - a.boxes.headI.y > Y_TOLERANCE
  ∨ (|a.boxes.headI.y - b.boxes.headI.y| ≤ Y_TOLERANCE
      ∧ a.boxes.headI.x ≤ b.boxes.headI.x)

instance : DecidableRel specFieldOrder := fun a b => by
  unfold specFieldOrder
  infer_instance

/-- The sort comparator implies the claimed ordering relation. -/
theorem fieldLe_imp_specFieldOrder {a b : FieldGroup} :
    fieldLe a b → specFieldOrder a b := by
  unfold fieldLe specFieldOrder
  rw [mathAbs_eq_abs]
  by_cases h : |a.boxes.headI.y - b.boxes.headI.y| > Y_TOLERANCE
  · rw [if_pos h]
    intro hle
    left
    have habs : b.boxes.headI.y - a.boxes.headI.y
        = |a.boxes.headI.y - b.boxes.headI.y| := by
      rw [abs_sub_comm]
      exact (abs_of_nonneg (by linarith)).symm
    linarith
  · rw [if_neg h]
    intro hx
    right
    exact ⟨le_of_not_lt h, hx⟩

/-- C7 (amended): the returned group list is sorted in the claimed
top-to-bottom then left-to-right sense between ADJACENT groups: every
consecutive pair of the output satisfies the band-ordering relation.  The
band comparator is not transitive, so the relation cannot be guaranteed for
arbitrary (non-adjacent) pairs — see the counterexample. -/
theorem groupBoxesIntoFields_chain_sorted (boxes : List SvgBox) (page : ℕ) :
    List.Chain' specFieldOrder (groupBoxesIntoFields boxes page) := by
  have h := chain'_insertionSort fieldLe fieldLe_total
      ((groupByY boxes page).map fun row =>
        splitByXGap (row.boxes.insertionSort fun a b => a.x ≤ b.x) row).flatten
  simp only [groupBoxesIntoFields]
  exact h.imp fun a b hab => fieldLe_imp_specFieldOrder hab

/-- C7 counterexample (for arbitrary pairs, as the claim states it): three
one-box groups at (x, y) positions (40, 0), (10, 3/2) and (0, 3).  The
first two are within the Y tolerance band (so X forces (10, 3/2) first),
likewise the last two (X forces (0, 3) before (10, 3/2)), but (40, 0) must
precede (0, 3) by more than the tolerance in Y — a cyclic constraint no
order satisfies.  The code returns the order (10, 3/2), (40, 0), (0, 3),
and the pair of the first and third groups violates the claimed rule. -/
theorem groupBoxesIntoFields_pairwise_sorted_false :
    ¬ List.Pairwise specFieldOrder (groupBoxesIntoFields
        [⟨40, 0, 3, 3, BoxType.cell⟩, ⟨10, 3/2, 3, 3, BoxType.cell⟩,
          ⟨0, 3, 3, 3, BoxType.cell⟩] 1) := by
  have hev : groupBoxesIntoFields
      [⟨40, 0, 3, 3, BoxType.cell⟩, ⟨10, 3/2, 3, 3, BoxType.cell⟩,
        ⟨0, 3, 3, 3, BoxType.cell⟩] 1
      = [⟨[⟨10, 3/2, 3, 3, BoxType.cell⟩],
          ⟨[⟨10, 3/2, 3, 3, BoxType.cell⟩], 3/4, BoxType.cell, 1⟩, 1⟩,
         ⟨[⟨40, 0, 3, 3, BoxType.cell⟩],
          ⟨[⟨40, 0, 3, 3, BoxType.cell⟩], 3/4, BoxType.cell, 1⟩, 1⟩,
         ⟨[⟨0, 3, 3, 3, BoxType.cell⟩],
          ⟨[⟨0, 3, 3, 3, BoxType.cell⟩], 3, BoxType.cell, 1⟩, 1⟩] := by
    norm_num [groupBoxesIntoFields, groupByY, addToRows, splitByXGap, splitGo, fieldLe,
      mathAbs, Y_TOLERANCE, FIELD_GAP_THRESHOLD, List.insertionSort, List.orderedInsert]
  rw [hev]
  intro hp
  have h01 := (List.pairwise_cons.mp hp).1
  have hrel := h01 ⟨[⟨0, 3, 3, 3, BoxType.cell⟩],
      ⟨[⟨0, 3, 3, 3, BoxType.cell⟩], 3, BoxType.cell, 1⟩, 1⟩ (by simp)
  rcases hrel with hrel | hrel
  · norm_num [Y_TOLERANCE] at hrel
  · have := hrel.2
    norm_num at this

/-! ### C1: document-wide key uniqueness -/

/-- C1 (code bug): a page whose labels are a single ten-period dot leader
with no caption in range, plus one character cell with no label in range.
The dot-leader detector names its field with the empty-caption fallback
`p1_field` and registers it in the caller-seeded used-names set; `convert`
passes that set as a sixth argument, but `mapLabelsToFields` declares only
five parameters and starts from a fresh empty set, so the matcher also
names its field `p1_field`: the emitted key list is `[p1_field, p1_field]`
— duplicate keys, contradicting the claimed document-wide uniqueness. -/
theorem convert_duplicate_field_keys :
    ((convertPageFields [⟨List.replicate 10 '.', 100, 200, 150, 210, 1⟩]
        [⟨10, 10, 8, 8, BoxType.cell⟩] (some ⟨1, 0, 0, 1, 0, 0⟩) 300 1 []).map Field.key)
      = ["p1_field", "p1_field"]
    ∧ ¬ (((convertPageFields [⟨List.replicate 10 '.', 100, 200, 150, 210, 1⟩]
        [⟨10, 10, 8, 8, BoxType.cell⟩] (some ⟨1, 0, 0, 1, 0, 0⟩) 300 1 []).map
          Field.key).Nodup) := by
  have hdot : isDotLine (List.replicate 10 '.') = true := by decide
  have hkeys : ((convertPageFields [⟨List.replicate 10 '.', 100, 200, 150, 210, 1⟩]
      [⟨10, 10, 8, 8, BoxType.cell⟩] (some ⟨1, 0, 0, 1, 0, 0⟩) 300 1 []).map Field.key)
      = ["p1_field", "p1_field"] := by
    norm_num [convertPageFields, extractDotLineFields, extractDotLineFieldsGo, dotGroupsGo,
      findTextLabelAbove, findTextAboveGo, mapLabelsToFields, mapLabelsGo, computeGroupPdfRect,
      findBestLabel, findBestGo, generateFieldName, deduplicateName, groupBoxesIntoFields,
      groupByY, addToRows, splitByXGap, splitGo, fieldLe, svgBoxToPdfRect, svgPointToViewport,
      minFold, maxFold, mathMin, mathMax, mathAbs, scoreLt, labelToPdfCoords, toFieldType,
      List.insertionSort, List.orderedInsert, List.enum, hdot, Y_TOLERANCE, FIELD_GAP_THRESHOLD,
      DOT_GROUP_Y_GAP, LABEL_Y_MAX_DISTANCE, LABEL_Y_MAX_DISTANCE_DOT]
    decide
  refine ⟨hkeys, ?_⟩
  rw [hkeys]
  decide

end Cerfa
